import Mathlib

/-!
Verification of the openclaw-tc-dict-skill scripts.

This file gives a shallow embedding of the three Python scripts
(`download_dictionary.py`, `check_updates.py`, `query_dictionary.py`) and
proves or refutes the specified properties about them.

Modelling conventions:
- Filesystem paths are lists of path components, each component a list of
  characters; `Path.resolve` becomes explicit normalisation of `.`, `..`
  and empty components (symlinks are assumed absent).
- Network fetches are modelled by passing the page contents (a function
  from URL to html text) as a parameter; the archive-fetch outcome is a
  parameter of type `Except`.
- Python floats produced by `difflib` similarity scores are modelled as
  exact rationals; the 0.6 cutoff becomes 3/5.
- Python dicts keyed by strings are modelled as insertion-ordered
  association lists where re-inserting an existing key updates the value
  in place, matching CPython dict semantics.
- String operations are implemented over `List Char` so that every
  definition evaluates by kernel reduction; character classification
  (whitespace, lower-casing, digits) covers the ASCII range, which is all
  the scripts rely on for keys and version tokens.
-/

namespace TcDict

/-- A path component, as a list of characters. -/
abbrev Comp := List Char

/-- Splits a character list on a separator character, keeping empty chunks,
like Python `str.split` with an explicit separator. -/
def splitOnChar (sep : Char) : List Char → List (List Char)
  | [] => [[]]
  | c :: cs =>
    let r := splitOnChar sep cs
    if c = sep then [] :: r
    else
      match r with
      | [] => [[c]]
      | g :: gs => (c :: g) :: gs

/-! ## Path model and zip-slip validation (download_dictionary.py) -/

/-- A single step of POSIX path normalisation: empty and `.` components are
dropped, `..` removes the previous component (and is a no-op at the root),
any other component is appended. -/
def normalizeInto (acc : List Comp) (c : Comp) : List Comp :=
  if c = [] ∨ c = ['.'] then acc
  else if c = ['.', '.'] then acc.dropLast
  else acc ++ [c]

/-- Embedding of `(extract_to / zip_path).resolve()`: splits the member name
on `/`, starts from the root when the member is absolute (pathlib semantics
of `/` with an absolute right operand), and normalises.  `extractTo` is the
already-resolved extraction directory. -/
def resolveUnder (extractTo : List Comp) (member : String) : List Comp :=
  let parts := splitOnChar '/' member.toList
  let start := if member.toList.head? = some '/' then [] else extractTo
  parts.foldl normalizeInto start

/-- Embedding of `validate_zip_path`: the resolved target must satisfy
`target.relative_to(extract_to)`, i.e. the resolved extraction directory
must be a component-prefix of the resolved target. -/
def validate_zip_path (member : String) (extractTo : List Comp) : Bool :=
  extractTo.isPrefixOf (resolveUnder extractTo member)

/-- The locations at which `zip_ref.extractall` materialises the members,
resolved against the extraction directory. -/
def extract_targets (members : List String) (extractTo : List Comp) :
    List (List Comp) :=
  members.map (resolveUnder extractTo)

/-- Embedding of the validation-and-extraction phase of
`DictionaryDownloader.download_and_extract`: every member is validated
before any extraction happens; the first invalid member aborts the whole
operation with a `ValueError` and nothing is extracted. -/
def download_and_extract (members : List String) (extractTo : List Comp) :
    Except String (List (List Comp)) :=
  if members.all (fun m => validate_zip_path m extractTo) then
    .ok (extract_targets members extractTo)
  else
    .error "Zip file contains unsafe path"

/-- A resolved target is strictly inside a directory when the directory is a
proper ancestor of it. -/
def strictlyInside (t d : List Comp) : Prop := d <+: t ∧ t ≠ d

/-- Concrete resolved extraction directory used in counterexamples. -/
def exDir : List Comp :=
  ["home".toList, "user".toList, "dicts".toList, "dict_concised_2014_20200101".toList]

/-! ## TLS configuration of the network fetches (check_updates.py,
download_dictionary.py) -/

/-- The subset of Python `ssl.SSLContext` state the scripts touch. -/
structure SSLContext where
  check_hostname : Bool
  verify_disabled : Bool
deriving DecidableEq

/-- Embedding of `ssl.create_default_context()`: hostname checking on,
certificate verification on. -/
def create_default_context : SSLContext :=
  { check_hostname := true, verify_disabled := false }

/-- Embedding of the module-scope mutations in check_updates.py:
`ssl_context.check_hostname = False; ssl_context.verify_mode = ssl.CERT_NONE`. -/
def check_updates_ssl_context : SSLContext :=
  let c := create_default_context
  let c := { c with check_hostname := false }
  { c with verify_disabled := true }

/-- One `urllib.request.urlopen` call: URL, timeout in seconds, and the
explicit `context` argument when one is passed. -/
structure FetchCall where
  url : String
  timeout : Nat
  context : Option SSLContext
deriving DecidableEq

/-- A fetch verifies TLS when it either uses the default context or an
explicit context with hostname checking on and verification not disabled. -/
def fetch_verifies (f : FetchCall) : Bool :=
  match f.context with
  | none => true
  | some c => c.check_hostname && !c.verify_disabled

def concised_page_url : String :=
  "https://language.moe.gov.tw/001/Upload/Files/site_content/M0001/respub/dict_concised_download.html"

/-- The listing-page fetch performed by `UpdateChecker.get_latest_version`
for a configured dictionary URL: it passes the module-scope
`ssl_context` explicitly. -/
def checker_listing_fetch (url : String) : FetchCall :=
  { url := url, timeout := 10, context := some check_updates_ssl_context }

/-- The listing-page fetch performed by
`DictionaryDownloader.get_latest_version`: default context. -/
def downloader_listing_fetch : FetchCall :=
  { url := concised_page_url, timeout := 10, context := none }

/-- The archive download performed by
`DictionaryDownloader.download_and_extract`: default context. -/
def downloader_archive_fetch (url : String) : FetchCall :=
  { url := url, timeout := 30, context := none }

/-! ## Metadata store and update coordination (download_dictionary.py) -/

/-- One installed-version record, as stored under a dictionary key in
metadata.json. -/
structure VersionRecord where
  version : String
  downloaded_at : String
  path : String
  filename : String
deriving DecidableEq

/-- The metadata document: an insertion-ordered mapping from dictionary
name to record. -/
abbrev Metadata := List (String × VersionRecord)

/-- Python lookup of the record stored for a key, with a missing key giving
none. -/
def lookupMeta (m : Metadata) (k : String) : Option VersionRecord :=
  (m.find? (fun p => p.1 = k)).map Prod.snd

/-- Python dict assignment of a record under a key: updates in place when
the key exists, appends otherwise. -/
def setMeta (m : Metadata) (k : String) (v : VersionRecord) : Metadata :=
  if m.any (fun p => p.1 = k) then
    m.map (fun p => if p.1 = k then (k, v) else p)
  else m ++ [(k, v)]

/-- The fields of the dict returned by a successful
`download_and_extract` that `update_dictionary` consumes. -/
structure ExtractResult where
  version : String
  xlsx_filename : String
  extract_path : String
  timestamp : String
deriving DecidableEq

/-- The value returned by `update_dictionary` when it does not raise. -/
inductive UpdateResult where
  /-- success False: could not determine the latest version. -/
  | noLatest
  /-- status up_to_date at the given version. -/
  | upToDate (version : String)
  /-- a download was performed and committed. -/
  | updated (r : ExtractResult)
deriving DecidableEq

/-- The observable outcome of one `update_dictionary` call: its return
value or propagated exception, the metadata document on disk afterwards,
and how many archive downloads were attempted. -/
structure UpdateOutcome where
  result : Except String UpdateResult
  finalMetadata : Metadata
  downloads : Nat

/-- Embedding of `DictionaryDownloader.update_dictionary`.  `latest` is
what `get_latest_version` returned; `fetch` gives the outcome
`download_and_extract` would produce for a version (an `Except.error` is a
raised exception, which the code propagates); `metadata` is the document on
disk when the call starts.  On success the new record is committed via
`save_metadata`. -/
def update_dictionary (latest : Option String)
    (fetch : String → Except String ExtractResult)
    (metadata : Metadata) (dict_name : String) (force : Bool) : UpdateOutcome :=
  match latest with
  | none => { result := .ok .noLatest, finalMetadata := metadata, downloads := 0 }
  | some lv =>
    let local_version := (lookupMeta metadata dict_name).map (fun r => r.version)
    if local_version = some lv ∧ force = false then
      { result := .ok (.upToDate lv), finalMetadata := metadata, downloads := 0 }
    else
      match fetch lv with
      | .error e => { result := .error e, finalMetadata := metadata, downloads := 1 }
      | .ok r =>
        { result := .ok (.updated r)
          finalMetadata := setMeta metadata dict_name
            { version := lv, downloaded_at := r.timestamp
              path := r.extract_path, filename := r.xlsx_filename }
          downloads := 1 }

/-! ## Durability of save_metadata (download_dictionary.py) -/

/-- The file operations the scripts perform on the metadata path. -/
inductive FsOp where
  /-- opening a path in write mode: truncates or creates the file. -/
  | openTrunc (p : String)
  /-- writing the serialised document to the open file. -/
  | writeAll (p : String) (data : String)
deriving DecidableEq

/-- Embedding of `DictionaryDownloader.save_metadata`: it opens the target
file itself in write mode (truncating it) and serialises into it directly —
there is no temporary file and no atomic replace. -/
def save_metadata_ops (target : String) (doc : String) : List FsOp :=
  [.openTrunc target, .writeAll target doc]

/-- Effect of one file operation on the filesystem (path to contents). -/
def applyOp (st : String → Option String) (op : FsOp) : String → Option String :=
  match op with
  | .openTrunc p => fun q => if q = p then some "" else st q
  | .writeAll p d => fun q => if q = p then some d else st q

/-- Runs a list of file operations. -/
def runOps (st : String → Option String) (ops : List FsOp) : String → Option String :=
  ops.foldl applyOp st

/-- Filesystem with a previously saved metadata document. -/
def fsWithOld : String → Option String :=
  fun q => if q = "metadata.json" then some "olddoc" else none

/-! ## Character-list string utilities shared by the query engine and the
version resolvers -/

/-- Python `str.strip()` over the ASCII whitespace the data contains. -/
def pyStripL (s : List Char) : List Char :=
  ((s.dropWhile Char.isWhitespace).reverse.dropWhile Char.isWhitespace).reverse

/-- Python `str.lower()` over the ASCII range (identity on CJK content). -/
def pyLowerL (s : List Char) : List Char := s.map Char.toLower

/-- The normalised lookup key of a word: `word.strip().lower()`. -/
def normKey (s : String) : List Char := pyLowerL (pyStripL s.toList)

/-- Python string less-than: lexicographic comparison by code point. -/
def strLtL : List Char → List Char → Bool
  | [], [] => false
  | [], _ :: _ => true
  | _ :: _, [] => false
  | a :: as, b :: bs =>
    if a.toNat < b.toNat then true
    else if b.toNat < a.toNat then false
    else strLtL as bs

/-- Stable insertion into a descending-sorted list: the new element goes
after every strictly greater element and before the first non-greater one. -/
def insertDesc (lt : α → α → Bool) (x : α) : List α → List α
  | [] => [x]
  | y :: ys => if lt x y then y :: insertDesc lt x ys else x :: y :: ys

/-- Stable descending sort, the semantics of Python
`sorted(l, reverse=True)` and of `heapq.nlargest` before truncation. -/
def sortDesc (lt : α → α → Bool) : List α → List α
  | [] => []
  | x :: xs => insertDesc lt x (sortDesc lt xs)

/-! ## difflib similarity (query_dictionary.py fuzzy tier) -/

/-- Length of the common run of equal characters at the heads of two
lists. -/
def runLen : List Char → List Char → Nat
  | a :: as, b :: bs => if a = b then runLen as bs + 1 else 0
  | _, _ => 0

/-- All start-position pairs, in ascending lexicographic order. -/
def allStarts (n m : Nat) : List (Nat × Nat) :=
  (List.range n).foldr
    (fun i acc => ((List.range m).map (fun j => (i, j))) ++ acc) []

/-- Embedding of `SequenceMatcher.find_longest_match` with no junk (the
query strings are far below the 200-character autojunk threshold): the
longest common contiguous block, earliest start in `a` then in `b` on
ties, returned as (start in a, start in b, size). -/
def longestMatch (a b : List Char) : Nat × Nat × Nat :=
  (allStarts (a.length + 1) (b.length + 1)).foldl
    (fun best c =>
      let k := runLen (a.drop c.1) (b.drop c.2)
      if best.2.2 < k then (c.1, c.2, k) else best)
    (0, 0, 0)

/-- Total size of the Ratcliff-Obershelp matching blocks, the `M` of
`SequenceMatcher.ratio`: recursively take the longest match and recurse on
the parts to its left and to its right.  The fuel is consumed once per
level; since every level removes at least one character from each side of
the recursion, `a.length + b.length` fuel always suffices. -/
def totalMatches : Nat → List Char → List Char → Nat
  | 0, _, _ => 0
  | fuel + 1, a, b =>
    let m := longestMatch a b
    if m.2.2 = 0 then 0
    else
      m.2.2 + totalMatches fuel (a.take m.1) (b.take m.2.1)
        + totalMatches fuel (a.drop (m.1 + m.2.2)) (b.drop (m.2.1 + m.2.2))

/-- Embedding of `SequenceMatcher.ratio` as an exact fraction (numerator,
positive denominator): `2 * M / T`, and 1 when both sequences are empty.
`a` is the candidate (seq1), `b` the query (seq2).  Keeping the raw
fraction instead of a normalised rational keeps every comparison a pure
`Nat` computation. -/
def simFrac (a b : List Char) : Nat × Nat :=
  if a.length + b.length = 0 then (1, 1)
  else (2 * totalMatches (a.length + b.length) a b, a.length + b.length)

/-- Comparison of score fractions with positive denominators, by
cross-multiplication. -/
def fracLe (p q : Nat × Nat) : Bool := p.1 * q.2 ≤ q.1 * p.2

/-- Strict comparison of score fractions by cross-multiplication. -/
def fracLt (p q : Nat × Nat) : Bool := p.1 * q.2 < q.1 * p.2

/-- The ratio as a rational number, for stating properties. -/
def similarity (a b : List Char) : ℚ :=
  ((simFrac a b).1 : ℚ) / ((simFrac a b).2 : ℚ)

/-- Python tuple comparison on (score, word) pairs as used by
`heapq.nlargest`. -/
def pairLt (p q : (Nat × Nat) × List Char) : Bool :=
  if fracLt p.1 q.1 then true
  else if fracLt q.1 p.1 then false
  else strLtL p.2 q.2

/-- Embedding of `difflib.get_close_matches(word, possibilities, n,
cutoff)`: keep the possibilities whose ratio reaches the cutoff (the
quick-ratio gates of the source are upper bounds of the ratio, so the
conjunction reduces to the ratio test; the 0.6 cutoff is the fraction
3/5), then `heapq.nlargest(n)` over (score, word) pairs, then drop the
scores. -/
def get_close_matches (word : List Char) (possibilities : List (List Char))
    (n : Nat) (cutoff : Nat × Nat) : List (List Char) :=
  let scored := possibilities.filterMap (fun x =>
    if fracLe cutoff (simFrac x word) then some (simFrac x word, x) else none)
  ((sortDesc pairLt scored).take n).map Prod.snd

/-! ## Dictionary index and query engine (query_dictionary.py) -/

/-- One row of the payload table after column normalisation; a `none`
field is a NaN cell. -/
structure Row where
  word : Option String
  pronunciation : Option String
  part_of_speech : Option String
  definition : Option String
  examples : Option String
  additional_info : Option String
deriving DecidableEq, Inhabited

/-- The word index: insertion-ordered mapping from normalised word to row
position. -/
abbrev WordIndex := List (List Char × Nat)

/-- Python dict insertion for the word index. -/
def insertKey (m : WordIndex) (k : List Char) (v : Nat) : WordIndex :=
  if m.any (fun p => p.1 = k) then
    m.map (fun p => if p.1 = k then (k, v) else p)
  else m ++ [(k, v)]

/-- Builds the word index as `_load_dictionary` does: one dict insertion
per row whose word cell is not NaN, keyed by the stripped lower-cased
word, the value being the row position. -/
def buildIndexAux : Nat → List Row → WordIndex → WordIndex
  | _, [], m => m
  | i, r :: rs, m =>
    match r.word with
    | some w => buildIndexAux (i + 1) rs (insertKey m (normKey w) i)
    | none => buildIndexAux (i + 1) rs m

/-- The `word_index` built over a row list. -/
def buildIndex (rows : List Row) : WordIndex := buildIndexAux 0 rows []

/-- Mapping lookup in the word index. -/
def lookupIdx (m : WordIndex) (k : List Char) : Option Nat :=
  (m.find? (fun p => p.1 = k)).map Prod.snd

/-- The keys of the word index, in insertion order. -/
def keysOf (m : WordIndex) : List (List Char) := m.map Prod.fst

/-- A formatted entry.  The first three fields are always emitted; the last
three are emitted only for a full query, hence the extra `Option` layer:
the outer layer is presence of the field in the output, the inner layer is
the explicit null for a NaN cell. -/
structure Entry where
  word : Option String
  pronunciation : Option String
  definition : Option String
  part_of_speech : Option (Option String)
  examples : Option (Option String)
  additional_info : Option (Option String)
deriving DecidableEq

/-- Renders one source cell: `str(cell).strip()` when present, the null
marker when NaN. -/
def strField (v : Option String) : Option String :=
  v.map (fun s => String.mk (pyStripL s.toList))

/-- Embedding of `DictionaryQuery._format_entry`. -/
def format_entry (r : Row) (full : Bool) : Entry :=
  { word := strField r.word
    pronunciation := strField r.pronunciation
    definition := strField r.definition
    part_of_speech := if full then some (strField r.part_of_speech) else none
    examples := if full then some (strField r.examples) else none
    additional_info := if full then some (strField r.additional_info) else none }

/-- The row a stored position refers to (positions produced by the index
are always in range; the default row keeps the function total). -/
def rowAt (rows : List Row) (i : Option Nat) : Row :=
  rows.getD (i.getD 0) default

/-- Embedding of `DictionaryQuery.find_exact_match`. -/
def find_exact_match (rows : List Row) (idx : WordIndex) (word : String) :
    Option Entry :=
  (lookupIdx idx (normKey word)).map
    (fun i => format_entry (rows.getD i default) false)

/-- Embedding of `DictionaryQuery.find_fuzzy_matches`: close matches of
the normalised query among the index keys, each formatted without full
details. -/
def find_fuzzy_matches (rows : List Row) (idx : WordIndex) (word : String)
    (max_results : Nat) : List Entry :=
  (get_close_matches (normKey word) (keysOf idx) max_results (3, 5)).map
    (fun m => format_entry (rowAt rows (lookupIdx idx m)) false)

/-- Embedding of `DictionaryQuery.find_prefix_matches`: the index keys the
normalised query starts, in insertion order, truncated, each formatted
without full details. -/
def find_prefix_matches (rows : List Row) (idx : WordIndex) (word : String)
    (max_results : Nat) : List Entry :=
  let ms := (keysOf idx).filter (fun w => (normKey word).isPrefixOf w)
  (ms.take max_results).map
    (fun m => format_entry (rowAt rows (lookupIdx idx m)) false)

/-- The JSON object `DictionaryQuery.query` returns; absent keys are
`none`. -/
structure QueryResult where
  success : Bool
  query : String
  match_type : Option String
  primary : Option Entry
  alternatives : Option (List Entry)
  error : Option String
deriving DecidableEq

/-- Embedding of `DictionaryQuery.query`: exact tier, then fuzzy tier with
three results, then prefix tier with five, then the no-match error.  Only
the exact tier passes the full flag to the formatter. -/
def query (rows : List Row) (idx : WordIndex) (word : String) (full : Bool) :
    QueryResult :=
  match find_exact_match rows idx word with
  | some _ =>
    { success := true, query := word, match_type := some "exact"
      primary := some (format_entry (rows.getD ((lookupIdx idx (normKey word)).getD 0) default) full)
      alternatives := none, error := none }
  | none =>
    let fz := find_fuzzy_matches rows idx word 3
    if fz.isEmpty then
      let ps := find_prefix_matches rows idx word 5
      if ps.isEmpty then
        { success := false, query := word, match_type := none, primary := none
          alternatives := none, error := some "No matching words found" }
      else
        { success := true, query := word, match_type := some "prefix", primary := none
          alternatives := some ps, error := none }
    else
      { success := true, query := word, match_type := some "fuzzy", primary := none
        alternatives := some fz, error := none }

/-! ## Version extraction and latest-version resolution
(check_updates.py, download_dictionary.py) -/

/-- ASCII decimal digit test, the `\d` of the version patterns. -/
def isAsciiDigit (c : Char) : Bool := 48 ≤ c.toNat && c.toNat ≤ 57

/-- One step of `re.findall(pre + eight digits, html)`: at each position,
match the literal prefix followed by eight digits and continue past the
match, or advance one character.  Fuel is the remaining text length, which
always suffices since every step consumes at least one character. -/
def scanVersionsAux (pre : List Char) : Nat → List Char → List String
  | 0, _ => []
  | _ + 1, [] => []
  | fuel + 1, c :: rest =>
    let s := c :: rest
    let digits := (s.drop pre.length).take 8
    if pre.isPrefixOf s && digits.length == 8 && digits.all isAsciiDigit then
      String.mk digits :: scanVersionsAux pre fuel (s.drop (pre.length + 8))
    else
      scanVersionsAux pre fuel rest

/-- All version tokens a listing page yields for a filename prefix. -/
def scanVersions (pre : List Char) (s : List Char) : List String :=
  scanVersionsAux pre s.length s

/-- String comparison used on version tokens. -/
def strLt (a b : String) : Bool := strLtL a.toList b.toList

/-- Embedding of `sorted(matches, reverse=True)[0]` guarded by a
non-emptiness check: the lexically greatest token, if any. -/
def latest_of (tokens : List String) : Option String :=
  (sortDesc (fun a b => strLt a b) tokens).head?

/-- One entry of the `UpdateChecker.DICTIONARIES` table: display name,
listing-page URL, and the filename prefix of its version pattern. -/
structure CheckerDictInfo where
  display : String
  url : String
  filePre : String
deriving DecidableEq

def moe_base : String :=
  "https://language.moe.gov.tw/001/Upload/Files/site_content/M0001/respub/"

/-- The `UpdateChecker.DICTIONARIES` table of check_updates.py. -/
def DICTIONARIES : List (String × CheckerDictInfo) :=
  [ ("concised", { display := "國語辭典簡編本"
                   url := moe_base ++ "dict_concised_download.html"
                   filePre := "dict_concised_2014_" })
  , ("revised", { display := "重編國語辭典修訂本"
                  url := moe_base ++ "dict_revised_download.html"
                  filePre := "dict_revised_2014_" })
  , ("idiom", { display := "成語典"
                url := moe_base ++ "dict_idiom_download.html"
                filePre := "dict_idiom_2014_" })
  , ("mini", { display := "國語小字典"
               url := moe_base ++ "dict_mini_download.html"
               filePre := "dict_mini_2014_" }) ]

/-- Table lookup for the checker configuration. -/
def lookupDict (m : List (String × CheckerDictInfo)) (k : String) :
    Option CheckerDictInfo :=
  (m.find? (fun p => p.1 = k)).map Prod.snd

/-- Embedding of `UpdateChecker.get_latest_version`: per-dictionary
listing page and pattern, greatest token, error dict when the name is
unknown or no token matches. -/
def UpdateChecker.get_latest_version (dict_name : String)
    (pages : String → String) : Except String String :=
  match lookupDict DICTIONARIES dict_name with
  | none => .error ("Unknown dictionary: " ++ dict_name)
  | some info =>
    match latest_of (scanVersions info.filePre.toList (pages info.url).toList) with
    | some v => .ok v
    | none => .error ("Could not extract version for " ++ dict_name)

/-- The keys of `DictionaryDownloader.SOURCES`. -/
def downloader_sources : List String := ["concised", "revised"]

def concised_file_pre : String := "dict_concised_2014_"

/-- Embedding of `DictionaryDownloader.get_latest_version`: raises on an
unconfigured name, but then always fetches the concised listing page and
scans with the concised pattern, whatever `dict_name` was; returns none
when no token matches. -/
def DictionaryDownloader.get_latest_version (dict_name : String)
    (pages : String → String) : Except String (Option String) :=
  if dict_name ∈ downloader_sources then
    .ok (latest_of (scanVersions concised_file_pre.toList
      (pages concised_page_url).toList))
  else
    .error ("Unknown dictionary: " ++ dict_name)

/-- Modelled from the spec wording of C6: latest-version resolution for a
dictionary extracts the tokens of the own pattern of that dictionary from
the own listing page of that dictionary and takes the lexical maximum. -/
def claimed_resolution (dict_name : String) (pages : String → String) :
    Option String :=
  (lookupDict DICTIONARIES dict_name).bind (fun info =>
    latest_of (scanVersions info.filePre.toList (pages info.url).toList))

/-- Numeric value of a digit token. -/
def natVal : List Char → Nat
  | [] => 0
  | c :: cs => (c.toNat - 48) * 10 ^ cs.length + natVal cs

/-- Concrete pair of listing pages on which the two resolvers disagree for
the revised dictionary. -/
def exPages : String → String := fun u =>
  if u = concised_page_url then "dict_concised_2014_20200101.zip"
  else "dict_revised_2014_20230505.zip"

/-! ## Spec-side definitions used to state claims, and concrete instances -/

/-- Comparison by similarity score alone; a stable descending sort by this
relation realises the tie-break the claim C5 states, namely index
insertion order among equal scores. -/
def simOnlyLt (p q : (Nat × Nat) × List Char) : Bool := fracLt p.1 q.1

/-- The fuzzy-tier selection as claim C5 words it: candidates at or above
the cutoff, top three by descending similarity, ties broken by insertion
order. -/
def claim_fuzzy_order (idx : WordIndex) (word : String) : List (List Char) :=
  (((sortDesc simOnlyLt ((keysOf idx).filterMap (fun x =>
      if fracLe (3, 5) (simFrac x (normKey word)) then
        some (simFrac x (normKey word), x)
      else none))).take 3).map Prod.snd)

/-- Does the word of this row normalise to the given key? -/
def rowKeyIs (r : Row) (k : List Char) : Bool :=
  match r.word with
  | some w => normKey w = k
  | none => false

/-- The position of the last row at or after position `i` whose word
normalises to `k`, the last-row-wins reading of the index contract. -/
def lastMatchIdxFrom (i : Nat) (rs : List Row) (k : List Char) : Option Nat :=
  match rs with
  | [] => none
  | r :: rest =>
    match lastMatchIdxFrom (i + 1) rest k with
    | some j => some j
    | none => if rowKeyIs r k then some i else none

/-- Two-row table whose normalised words tie in similarity against the
query abc. -/
def exRows : List Row :=
  [ { word := some "abd", pronunciation := none, part_of_speech := some "n"
      definition := none, examples := none, additional_info := none }
  , { word := some "abe", pronunciation := none, part_of_speech := none
      definition := none, examples := none, additional_info := none } ]

/-- One-row table whose word is whitespace only. -/
def wsRows : List Row :=
  [ { word := some "  ", pronunciation := none, part_of_speech := none
      definition := none, examples := none, additional_info := none } ]

/-- One-row table with a single short word. -/
def oneRow : List Row :=
  [ { word := some "a", pronunciation := none, part_of_speech := none
      definition := none, examples := none, additional_info := none } ]

/-! ## Association-list lemmas -/

theorem find?_map_update {β : Type} [DecidableEq κ] (qs : List (κ × β)) (k : κ)
    (v : β) (h : qs.any (fun p => p.1 = k) = true) :
    (qs.map (fun p => if p.1 = k then (k, v) else p)).find? (fun p => p.1 = k)
      = some (k, v) := by
  induction qs with
  | nil => simp at h
  | cons q qs ih =>
    by_cases hq : q.1 = k
    · simp [hq, List.find?_cons]
    · have h' : qs.any (fun p => p.1 = k) = true := by
        rcases List.any_eq_true.mp h with ⟨p, hp, hpk⟩
        rcases List.mem_cons.mp hp with rfl | hmem
        · exact absurd (of_decide_eq_true hpk) hq
        · exact List.any_eq_true.mpr ⟨p, hmem, hpk⟩
      have hqd : decide (q.1 = k) = false := by simpa using hq
      simp only [List.map_cons, if_neg hq, List.find?_cons, hqd]
      exact ih h'

theorem find?_map_update_ne {β : Type} [DecidableEq κ] (qs : List (κ × β))
    (k k' : κ) (v : β) (hne : k ≠ k') :
    (qs.map (fun p => if p.1 = k' then (k', v) else p)).find? (fun p => p.1 = k)
      = qs.find? (fun p => p.1 = k) := by
  induction qs with
  | nil => rfl
  | cons q qs ih =>
    by_cases hq : q.1 = k'
    · have hqk : decide (q.1 = k) = false := by
        simp only [decide_eq_false_iff_not]
        rw [hq]
        exact fun hkk => hne hkk.symm
      have hkvk : decide ((k', v).1 = k) = false := by
        simp only [decide_eq_false_iff_not]
        exact fun hkk => hne hkk.symm
      simp only [List.map_cons, if_pos hq, List.find?_cons, hkvk, hqk]
      exact ih
    · simp only [List.map_cons, if_neg hq, List.find?_cons]
      cases hqk : decide (q.1 = k) with
      | true => rfl
      | false => exact ih

theorem find?_append_single {β : Type} [DecidableEq κ] (qs : List (κ × β))
    (k : κ) (v : β) (h : qs.find? (fun p => p.1 = k) = none) :
    (qs ++ [(k, v)]).find? (fun p => p.1 = k) = some (k, v) := by
  induction qs with
  | nil => simp [List.find?_cons]
  | cons q qs ih =>
    rw [List.cons_append]
    rw [List.find?_cons] at h ⊢
    cases hq : decide (q.1 = k) with
    | true =>
      simp only [hq] at h
      cases h
    | false =>
      simp only [hq] at h ⊢
      exact ih h

theorem find?_append_single_ne {β : Type} [DecidableEq κ] (qs : List (κ × β))
    (k k' : κ) (v : β) (hne : k ≠ k') :
    (qs ++ [(k', v)]).find? (fun p => p.1 = k) = qs.find? (fun p => p.1 = k) := by
  induction qs with
  | nil =>
    have : decide ((k', v).1 = k) = false := by
      simp only [decide_eq_false_iff_not]
      exact fun hkk => hne hkk.symm
    simp [List.find?_cons, this]
  | cons q qs ih =>
    rw [List.cons_append, List.find?_cons, List.find?_cons]
    cases hq : decide (q.1 = k) with
    | true => rfl
    | false => exact ih

/-! ## C1: zip-slip validation -/

/-- C1, as stated, is refuted on the degenerate member `.`: it passes
`validate_zip_path` (its resolved path equals the extraction directory, and
`Path.relative_to` accepts equality), the archive is accepted, yet the
member does not land strictly inside the extraction directory — it lands at
the directory itself. -/
theorem C1_counterexample :
    validate_zip_path "." exDir = true ∧
    download_and_extract ["."] exDir = .ok [exDir] ∧
    ¬ strictlyInside exDir exDir := by
  refine ⟨by decide, rfl, ?_⟩
  intro h
  exact h.2 rfl

/-- C1 (amended): if any archive member fails the path validation then
`download_and_extract` rejects the whole archive with the unsafe-path error
and extracts nothing; conversely, whenever extraction is performed, every
member passed validation and every extracted member resolves to a
descendant of the extraction directory (possibly the directory itself, as
for the member `.`). -/
theorem C1_secure_extraction (members : List String) (d : List Comp) :
    ((∃ m ∈ members, validate_zip_path m d = false) →
        download_and_extract members d = .error "Zip file contains unsafe path") ∧
    (∀ ts, download_and_extract members d = .ok ts →
        (∀ m ∈ members, validate_zip_path m d = true) ∧
        ∀ t ∈ ts, d <+: t) := by
  constructor
  · rintro ⟨m, hm, hbad⟩
    unfold download_and_extract
    rw [if_neg]
    intro hall
    have := List.all_eq_true.mp hall m hm
    rw [hbad] at this
    exact Bool.false_ne_true this
  · intro ts hts
    unfold download_and_extract at hts
    by_cases hall : members.all (fun m => validate_zip_path m d) = true
    · rw [if_pos hall] at hts
      have hval : ∀ m ∈ members, validate_zip_path m d = true :=
        fun m hm => List.all_eq_true.mp hall m hm
      refine ⟨hval, ?_⟩
      intro t ht
      cases hts
      obtain ⟨m, hm, rfl⟩ := List.mem_map.mp ht
      have := hval m hm
      unfold validate_zip_path at this
      exact List.isPrefixOf_iff_prefix.mp this
    · rw [if_neg hall] at hts
      cases hts

/-- Witness for `C1_secure_extraction` at concrete inputs: an archive
holding `../evil` is rejected, and a safe archive extracts with every
member below the extraction directory. -/
theorem C1_secure_extraction_witness :
    download_and_extract ["../evil"] exDir = .error "Zip file contains unsafe path" ∧
    ∀ t ∈ extract_targets ["sub/ok.xlsx"] exDir, exDir <+: t := by
  constructor
  · exact (C1_secure_extraction ["../evil"] exDir).1
      ⟨"../evil", by decide, by decide⟩
  · intro t ht
    exact ((C1_secure_extraction ["sub/ok.xlsx"] exDir).2
      (extract_targets ["sub/ok.xlsx"] exDir) rfl).2 t ht

/-! ## C2: TLS verification -/

/-- C2 fails on the code: the version-listing fetch of check_updates.py is
made with the module-scope context that disables both hostname checking and
certificate verification, while the two fetches of download_dictionary.py
do verify.  The claim that no code path fetches with verification disabled
is therefore false. -/
theorem C2_checker_fetch_unverified :
    fetch_verifies (checker_listing_fetch concised_page_url) = false ∧
    check_updates_ssl_context.check_hostname = false ∧
    check_updates_ssl_context.verify_disabled = true ∧
    fetch_verifies downloader_listing_fetch = true ∧
    fetch_verifies (downloader_archive_fetch "") = true := by
  decide

/-! ## C3 and C7: update coordination -/

theorem lookupMeta_setMeta_self (m : Metadata) (k : String) (v : VersionRecord) :
    lookupMeta (setMeta m k v) k = some v := by
  unfold lookupMeta setMeta
  by_cases h : m.any (fun p => p.1 = k) = true
  · rw [if_pos h, find?_map_update m k v h]
    rfl
  · rw [if_neg h]
    have hnone : m.find? (fun p => p.1 = k) = none := by
      rw [List.find?_eq_none]
      intro p hp hpk
      exact h (List.any_eq_true.mpr ⟨p, hp, hpk⟩)
    rw [find?_append_single m k v hnone]
    rfl

/-- Unfolding equation of `update_dictionary` when a latest version was
resolved. -/
theorem update_dictionary_some (lv : String)
    (fetch : String → Except String ExtractResult)
    (metadata : Metadata) (dict_name : String) (force : Bool) :
    update_dictionary (some lv) fetch metadata dict_name force =
      (if (lookupMeta metadata dict_name).map (fun r => r.version) = some lv
            ∧ force = false then
        { result := .ok (.upToDate lv), finalMetadata := metadata, downloads := 0 }
      else
        match fetch lv with
        | .error e => { result := .error e, finalMetadata := metadata, downloads := 1 }
        | .ok r =>
          { result := .ok (.updated r)
            finalMetadata := setMeta metadata dict_name
              { version := lv, downloaded_at := r.timestamp
                path := r.extract_path, filename := r.xlsx_filename }
            downloads := 1 }) := rfl

/-- C3: a failed fetch-and-extract leaves the on-disk metadata untouched,
and the metadata changes only when a fetch succeeded, in which case the
committed record carries the fetched version.  The previously installed
record for the dictionary is in particular untouched on failure. -/
theorem C3_no_partial_commit (latest : Option String)
    (fetch : String → Except String ExtractResult)
    (metadata : Metadata) (dict_name : String) (force : Bool) :
    (∀ lv e, latest = some lv → fetch lv = .error e →
        (update_dictionary latest fetch metadata dict_name force).finalMetadata
          = metadata) ∧
    ((update_dictionary latest fetch metadata dict_name force).finalMetadata
          ≠ metadata →
        ∃ lv r, latest = some lv ∧ fetch lv = .ok r ∧
          (update_dictionary latest fetch metadata dict_name force).result
            = .ok (.updated r)) := by
  constructor
  · rintro lv e rfl hfetch
    rw [update_dictionary_some]
    by_cases hc : ((lookupMeta metadata dict_name).map (fun r => r.version)
        = some lv ∧ force = false)
    · rw [if_pos hc]
    · rw [if_neg hc, hfetch]
  · intro hchanged
    cases latest with
    | none => exact absurd rfl hchanged
    | some lv =>
      rw [update_dictionary_some] at hchanged ⊢
      by_cases hc : ((lookupMeta metadata dict_name).map (fun r => r.version)
          = some lv ∧ force = false)
      · rw [if_pos hc] at hchanged
        exact absurd rfl hchanged
      · rw [if_neg hc] at hchanged ⊢
        cases hfetch : fetch lv with
        | error e =>
          rw [hfetch] at hchanged
          exact absurd rfl hchanged
        | ok r => exact ⟨lv, r, rfl, hfetch, rfl⟩

/-- Witness for `C3_no_partial_commit`: a concrete failing fetch leaves a
concrete one-record document unchanged. -/
theorem C3_no_partial_commit_witness :
    (update_dictionary (some "20240101") (fun _ => .error "boom")
        [("concised", ⟨"20200101", "t", "p", "f"⟩)] "concised" false).finalMetadata
      = [("concised", ⟨"20200101", "t", "p", "f"⟩)] :=
  (C3_no_partial_commit (some "20240101") (fun _ => .error "boom")
      [("concised", ⟨"20200101", "t", "p", "f"⟩)] "concised" false).1
    "20240101" "boom" rfl rfl

/-- C7: when the installed version equals the resolved latest version and
force is off, `update_dictionary` reports up_to_date and performs no
archive download; consequently, after any first call that does not raise,
a second call with the same resolved latest version performs zero archive
downloads and reports up_to_date. -/
theorem C7_up_to_date_skips_download (lv : String)
    (fetch : String → Except String ExtractResult)
    (metadata : Metadata) (dict_name : String)
    (hok : ∃ r, fetch lv = .ok r) :
    (∀ rec, lookupMeta metadata dict_name = some rec → rec.version = lv →
        update_dictionary (some lv) fetch metadata dict_name false
          = { result := .ok (.upToDate lv), finalMetadata := metadata, downloads := 0 }) ∧
    ((update_dictionary (some lv) fetch
        (update_dictionary (some lv) fetch metadata dict_name false).finalMetadata
        dict_name false).downloads = 0 ∧
      (update_dictionary (some lv) fetch
        (update_dictionary (some lv) fetch metadata dict_name false).finalMetadata
        dict_name false).result = .ok (.upToDate lv)) := by
  have hbranch : ∀ (m : Metadata),
      (lookupMeta m dict_name).map (fun r => r.version) = some lv →
      update_dictionary (some lv) fetch m dict_name false
        = { result := .ok (.upToDate lv), finalMetadata := m, downloads := 0 } := by
    intro m hm
    rw [update_dictionary_some, if_pos ⟨hm, rfl⟩]
  constructor
  · intro rec hrec hv
    refine hbranch metadata ?_
    rw [hrec]
    simp [hv]
  · by_cases hc : ((lookupMeta metadata dict_name).map (fun r => r.version)
        = some lv ∧ (false : Bool) = false)
    · rw [hbranch metadata hc.1, hbranch metadata hc.1]
      exact ⟨rfl, rfl⟩
    · obtain ⟨r, hr⟩ := hok
      have h1 : (update_dictionary (some lv) fetch metadata dict_name false).finalMetadata
          = setMeta metadata dict_name
            { version := lv, downloaded_at := r.timestamp
              path := r.extract_path, filename := r.xlsx_filename } := by
        rw [update_dictionary_some, if_neg hc, hr]
      rw [h1]
      rw [hbranch _ (by rw [lookupMeta_setMeta_self]; rfl)]
      exact ⟨rfl, rfl⟩

/-- Witness for `C7_up_to_date_skips_download`: with a not-yet-installed
document, the first call downloads and commits, and the second call reports
up_to_date with zero downloads. -/
theorem C7_up_to_date_skips_download_witness :
    (update_dictionary (some "20240101")
        (fun v => .ok ⟨v, "dict_concised_2014.xlsx", "p", "t"⟩)
        ((update_dictionary (some "20240101")
            (fun v => .ok ⟨v, "dict_concised_2014.xlsx", "p", "t"⟩)
            [] "concised" false).finalMetadata)
        "concised" false).downloads = 0 :=
  ((C7_up_to_date_skips_download "20240101"
      (fun v => .ok ⟨v, "dict_concised_2014.xlsx", "p", "t"⟩)
      [] "concised" ⟨_, rfl⟩).2).1

/-! ## C4: save durability -/

/-- C4 fails on the code: `save_metadata` truncates metadata.json in place,
so a crash after the `open` and before the write completes leaves the store
holding neither the old nor the new document (here: empty, unparseable).
Absent a crash the write does complete. -/
theorem C4_save_not_atomic :
    runOps fsWithOld ((save_metadata_ops "metadata.json" "newdoc").take 1)
        "metadata.json" = some "" ∧
    some "" ≠ some "olddoc" ∧ some "" ≠ some "newdoc" ∧
    runOps fsWithOld (save_metadata_ops "metadata.json" "newdoc")
        "metadata.json" = some "newdoc" ∧
    (save_metadata_ops "metadata.json" "newdoc").head?
        = some (.openTrunc "metadata.json") := by
  refine ⟨rfl, by decide, by decide, rfl, rfl⟩

/-! ## Order and sorting lemmas -/

theorem insertDesc_perm (lt : α → α → Bool) (x : α) (l : List α) :
    List.Perm (insertDesc lt x l) (x :: l) := by
  induction l with
  | nil => exact List.Perm.refl _
  | cons y ys ih =>
    unfold insertDesc
    cases hxy : lt x y with
    | true =>
      simp only [if_pos]
      exact (ih.cons y).trans (List.Perm.swap x y ys)
    | false =>
      simp only [Bool.false_eq_true, if_neg, ite_false]
      exact List.Perm.refl _

theorem sortDesc_perm (lt : α → α → Bool) (l : List α) : List.Perm (sortDesc lt l) l := by
  induction l with
  | nil => exact List.Perm.refl _
  | cons x xs ih => exact (insertDesc_perm lt x _).trans (ih.cons x)

theorem insertDesc_pairwise (lt : α → α → Bool)
    (hasymm : ∀ a b, lt a b = true → lt b a = false)
    (htrans : ∀ a b c, lt a b = false → lt b c = false → lt a c = false)
    (x : α) (l : List α) (hl : l.Pairwise (fun a b => lt a b = false)) :
    (insertDesc lt x l).Pairwise (fun a b => lt a b = false) := by
  induction l with
  | nil => simp [insertDesc]
  | cons y ys ih =>
    cases hl with
    | cons hy hys =>
      unfold insertDesc
      cases hxy : lt x y with
      | true =>
        simp only [if_pos]
        refine List.Pairwise.cons ?_ (ih hys)
        intro z hz
        rcases List.mem_cons.mp ((insertDesc_perm lt x ys).mem_iff.mp hz) with rfl | hm
        · exact hasymm _ y hxy
        · exact hy z hm
      | false =>
        simp only [Bool.false_eq_true, if_neg, ite_false]
        refine List.Pairwise.cons ?_ (List.Pairwise.cons hy hys)
        intro z hz
        rcases List.mem_cons.mp hz with rfl | hm
        · exact hxy
        · exact htrans x y z hxy (hy z hm)

theorem sortDesc_pairwise (lt : α → α → Bool)
    (hasymm : ∀ a b, lt a b = true → lt b a = false)
    (htrans : ∀ a b c, lt a b = false → lt b c = false → lt a c = false)
    (l : List α) :
    (sortDesc lt l).Pairwise (fun a b => lt a b = false) := by
  induction l with
  | nil => exact List.Pairwise.nil
  | cons x xs ih => exact insertDesc_pairwise lt hasymm htrans x _ ih

/-- Elements dropped from the front of a pairwise-related list are related
to by every element kept. -/
theorem take_dominates {R : α → α → Prop} {l : List α} (h : l.Pairwise R)
    (n : Nat) :
    ∀ x ∈ l.drop n, ∀ y ∈ l.take n, R y x := by
  have hsplit : (l.take n ++ l.drop n).Pairwise R := by
    rw [List.take_append_drop]
    exact h
  intro x hx y hy
  exact (List.pairwise_append.mp hsplit).2.2 y hy x hx

/-- The head of a stable descending sort is a maximum. -/
theorem sortDesc_head_max (lt : α → α → Bool)
    (hasymm : ∀ a b, lt a b = true → lt b a = false)
    (htrans : ∀ a b c, lt a b = false → lt b c = false → lt a c = false)
    (hirr : ∀ a, lt a a = false)
    (l : List α) (v : α) (h : (sortDesc lt l).head? = some v) :
    v ∈ l ∧ ∀ t ∈ l, lt v t = false := by
  cases hs : sortDesc lt l with
  | nil => rw [hs] at h; cases h
  | cons w ws =>
    rw [hs] at h
    cases h
    have hperm := sortDesc_perm lt l
    rw [hs] at hperm
    constructor
    · exact hperm.mem_iff.mp (List.mem_cons_self v ws)
    · intro t ht
      have := sortDesc_pairwise lt hasymm htrans l
      rw [hs] at this
      cases this with
      | cons hv _ =>
        rcases List.mem_cons.mp (hperm.mem_iff.mpr ht) with rfl | hm
        · exact hirr t
        · exact hv t hm

/-! ## Lemmas about the Python string order -/

theorem strLtL_asymm : ∀ a b, strLtL a b = true → strLtL b a = false := by
  intro a
  induction a with
  | nil =>
    intro b h
    cases b with
    | nil => cases h
    | cons y ys => rfl
  | cons x xs ih =>
    intro b h
    cases b with
    | nil => cases h
    | cons y ys =>
      simp only [strLtL] at h ⊢
      rcases Nat.lt_trichotomy x.toNat y.toNat with h1 | h1 | h1
      · rw [if_neg (by omega), if_pos h1]
      · rw [if_neg (by omega), if_neg (by omega)] at h ⊢
        exact ih ys h
      · rw [if_neg (by omega), if_pos h1] at h
        cases h

theorem strLtL_irrefl : ∀ a, strLtL a a = false := by
  intro a
  induction a with
  | nil => rfl
  | cons x xs ih =>
    simp only [strLtL]
    rw [if_neg (by omega), if_neg (by omega)]
    exact ih

theorem strLtL_negtrans : ∀ a b c, strLtL a b = false → strLtL b c = false →
    strLtL a c = false := by
  intro a
  induction a with
  | nil =>
    intro b c hab hbc
    cases b with
    | nil => exact hbc
    | cons y ys => cases hab
  | cons x xs ih =>
    intro b c hab hbc
    cases c with
    | nil => rfl
    | cons z zs =>
      cases b with
      | nil => cases hbc
      | cons y ys =>
        simp only [strLtL] at hab hbc ⊢
        rcases Nat.lt_trichotomy x.toNat y.toNat with h1 | h1 | h1
        · rw [if_pos h1] at hab
          cases hab
        · rw [if_neg (by omega), if_neg (by omega)] at hab
          rcases Nat.lt_trichotomy y.toNat z.toNat with h2 | h2 | h2
          · rw [if_pos h2] at hbc
            cases hbc
          · rw [if_neg (by omega), if_neg (by omega)] at hbc
            rw [if_neg (by omega), if_neg (by omega)]
            exact ih ys zs hab hbc
          · rw [if_neg (by omega), if_pos (by omega)]
        · rcases Nat.lt_trichotomy y.toNat z.toNat with h2 | h2 | h2
          · rw [if_pos h2] at hbc
            cases hbc
          · rw [if_neg (by omega), if_pos (by omega)]
          · rw [if_neg (by omega), if_pos (by omega)]

/-! ## Lemmas about the pair order used by nlargest -/

theorem fracLe_trans_aux {a1 a2 b1 b2 c1 c2 : Nat} (hb : 0 < b2)
    (h1 : b1 * a2 ≤ a1 * b2) (h2 : c1 * b2 ≤ b1 * c2) :
    c1 * a2 ≤ a1 * c2 := by
  have key : (c1 * a2) * b2 ≤ (a1 * c2) * b2 := by
    calc (c1 * a2) * b2 = (c1 * b2) * a2 := by ring
      _ ≤ (b1 * c2) * a2 := Nat.mul_le_mul_right a2 h2
      _ = (b1 * a2) * c2 := by ring
      _ ≤ (a1 * b2) * c2 := Nat.mul_le_mul_right c2 h1
      _ = (a1 * c2) * b2 := by ring
  exact Nat.le_of_mul_le_mul_right key hb

theorem fracLt_false_of_le {p q : Nat × Nat} (h : q.1 * p.2 ≤ p.1 * q.2) :
    fracLt p q = false := by
  unfold fracLt
  exact decide_eq_false (by omega)

theorem le_of_fracLt_false {p q : Nat × Nat} (h : fracLt p q = false) :
    q.1 * p.2 ≤ p.1 * q.2 := by
  unfold fracLt at h
  have := of_decide_eq_false h
  omega

theorem pairLt_asymm (p q : (Nat × Nat) × List Char) :
    pairLt p q = true → pairLt q p = false := by
  unfold pairLt
  cases h1 : fracLt p.1 q.1 with
  | true =>
    intro _
    have h2 : fracLt q.1 p.1 = false := by
      unfold fracLt at h1 ⊢
      have := of_decide_eq_true h1
      exact decide_eq_false (by omega)
    rw [h2]
    simp
  | false =>
    cases h2 : fracLt q.1 p.1 with
    | true =>
      intro h
      simp at h
    | false =>
      intro h
      simp at h ⊢
      exact strLtL_asymm p.2 q.2 h

theorem pairLt_irrefl (p : (Nat × Nat) × List Char) : pairLt p p = false := by
  unfold pairLt
  rw [fracLt_false_of_le (le_refl _)]
  simp
  exact strLtL_irrefl p.2

theorem pairLt_negtrans (p q r : (Nat × Nat) × List Char)
    (hp : 0 < p.1.2) (hq : 0 < q.1.2) (hr : 0 < r.1.2)
    (hpq : pairLt p q = false) (hqr : pairLt q r = false) :
    pairLt p r = false := by
  unfold pairLt at hpq hqr ⊢
  have hnpq : fracLt p.1 q.1 = false := by
    cases h : fracLt p.1 q.1 with
    | false => rfl
    | true => rw [if_pos h] at hpq; cases hpq
  have hnqr : fracLt q.1 r.1 = false := by
    cases h : fracLt q.1 r.1 with
    | false => rfl
    | true => rw [if_pos h] at hqr; cases hqr
  have h1 : q.1.1 * p.1.2 ≤ p.1.1 * q.1.2 := le_of_fracLt_false hnpq
  have h2 : r.1.1 * q.1.2 ≤ q.1.1 * r.1.2 := le_of_fracLt_false hnqr
  have h3 : r.1.1 * p.1.2 ≤ p.1.1 * r.1.2 := fracLe_trans_aux hq h1 h2
  have hnpr : fracLt p.1 r.1 = false := fracLt_false_of_le h3
  rw [hnpr]
  simp only [Bool.false_eq_true, if_false, ite_false]
  cases h4 : fracLt r.1 p.1 with
  | true => simp
  | false =>
    simp only [Bool.false_eq_true, if_false, ite_false]
    have h5 : p.1.1 * r.1.2 ≤ r.1.1 * p.1.2 := le_of_fracLt_false h4
    have e13 : p.1.1 * r.1.2 = r.1.1 * p.1.2 := Nat.le_antisymm h5 h3
    have h6 : p.1.1 * q.1.2 ≤ q.1.1 * p.1.2 :=
      fracLe_trans_aux hr h2 (le_of_eq e13)
    have e12 : p.1.1 * q.1.2 = q.1.1 * p.1.2 := Nat.le_antisymm h6 h1
    have h7 : q.1.1 * r.1.2 ≤ r.1.1 * q.1.2 :=
      fracLe_trans_aux hp (le_of_eq e13) h1
    have e23 : q.1.1 * r.1.2 = r.1.1 * q.1.2 := Nat.le_antisymm h7 h2
    have hgt12 : fracLt q.1 p.1 = false := fracLt_false_of_le (le_of_eq e12)
    have hgt23 : fracLt r.1 q.1 = false := fracLt_false_of_le (le_of_eq e23)
    rw [hnpq, hgt12] at hpq
    rw [hnqr, hgt23] at hqr
    simp only [Bool.false_eq_true, if_false, ite_false] at hpq hqr
    exact strLtL_negtrans p.2 q.2 r.2 hpq hqr

/-! ## Member-relative pairwise sorting lemmas (the pair order is only
transitive on scores with positive denominators, which all produced scores
have) -/

theorem insertDesc_pairwiseP {P : α → Prop} (lt : α → α → Bool)
    (hasymm : ∀ a b, lt a b = true → lt b a = false)
    (htrans : ∀ a b c, P a → P b → P c →
      lt a b = false → lt b c = false → lt a c = false)
    (x : α) (l : List α) (hx : P x) (hl : ∀ y ∈ l, P y)
    (hp : l.Pairwise (fun a b => lt a b = false)) :
    (insertDesc lt x l).Pairwise (fun a b => lt a b = false) := by
  induction l with
  | nil => simp [insertDesc]
  | cons y ys ih =>
    have hy' : P y := hl y (List.mem_cons_self y ys)
    have hys' : ∀ z ∈ ys, P z := fun z hz => hl z (List.mem_cons_of_mem _ hz)
    cases hp with
    | cons hy hys =>
      unfold insertDesc
      cases hxy : lt x y with
      | true =>
        simp only [if_pos]
        refine List.Pairwise.cons ?_ (ih hys' hys)
        intro z hz
        rcases List.mem_cons.mp ((insertDesc_perm lt x ys).mem_iff.mp hz) with rfl | hm
        · exact hasymm _ y hxy
        · exact hy z hm
      | false =>
        simp only [Bool.false_eq_true, if_neg, ite_false]
        refine List.Pairwise.cons ?_ (List.Pairwise.cons hy hys)
        intro z hz
        rcases List.mem_cons.mp hz with rfl | hm
        · exact hxy
        · exact htrans x y z hx hy' (hys' z hm) hxy (hy z hm)

theorem sortDesc_pairwiseP {P : α → Prop} (lt : α → α → Bool)
    (hasymm : ∀ a b, lt a b = true → lt b a = false)
    (htrans : ∀ a b c, P a → P b → P c →
      lt a b = false → lt b c = false → lt a c = false)
    (l : List α) (hl : ∀ y ∈ l, P y) :
    (sortDesc lt l).Pairwise (fun a b => lt a b = false) := by
  induction l with
  | nil => exact List.Pairwise.nil
  | cons x xs ih =>
    have hx : P x := hl x (List.mem_cons_self x xs)
    have hxs : ∀ y ∈ xs, P y := fun y hy => hl y (List.mem_cons_of_mem _ hy)
    refine insertDesc_pairwiseP lt hasymm htrans x _ hx ?_ (ih hxs)
    intro y hy
    exact hxs y ((sortDesc_perm lt xs).mem_iff.mp hy)

/-! ## C5: the three query tiers -/

theorem simFrac_den_pos (a b : List Char) : 0 < (simFrac a b).2 := by
  unfold simFrac
  by_cases h : a.length + b.length = 0
  · rw [if_pos h]
    exact Nat.one_pos
  · rw [if_neg h]
    exact Nat.pos_of_ne_zero h

/-- The Bool cutoff test of the embedding agrees with the rational
statement similarity at least 3/5. -/
theorem cutoff_iff (a b : List Char) :
    fracLe (3, 5) (simFrac a b) = true ↔ (3 : ℚ) / 5 ≤ similarity a b := by
  unfold fracLe similarity
  have hd : 0 < (simFrac a b).2 := simFrac_den_pos a b
  rw [decide_eq_true_eq]
  rw [div_le_div_iff₀ (by norm_num) (by exact_mod_cast hd)]
  constructor
  · intro h
    exact_mod_cast h
  · intro h
    exact_mod_cast h

/-- A non-ascending pair comparison between produced scores means
non-ascending similarity. -/
theorem similarity_le_of_pairLt_false {k : List Char}
    {p q : (Nat × Nat) × List Char}
    (hp : p.1 = simFrac p.2 k) (hq : q.1 = simFrac q.2 k)
    (h : pairLt p q = false) :
    similarity q.2 k ≤ similarity p.2 k := by
  have hnlt : fracLt p.1 q.1 = false := by
    cases hx : fracLt p.1 q.1 with
    | false => rfl
    | true =>
      unfold pairLt at h
      rw [if_pos hx] at h
      cases h
  have hle := le_of_fracLt_false hnlt
  rw [hp, hq] at hle
  unfold similarity
  have hdp : (0 : ℚ) < ((simFrac p.2 k).2 : ℚ) := by
    exact_mod_cast simFrac_den_pos p.2 k
  have hdq : (0 : ℚ) < ((simFrac q.2 k).2 : ℚ) := by
    exact_mod_cast simFrac_den_pos q.2 k
  rw [div_le_div_iff₀ hdq hdp]
  exact_mod_cast hle

theorem mem_scored {keys : List (List Char)} {k : List Char}
    {p : (Nat × Nat) × List Char}
    (h : p ∈ keys.filterMap (fun x =>
        if fracLe (3, 5) (simFrac x k) then some (simFrac x k, x) else none)) :
    p.2 ∈ keys ∧ p.1 = simFrac p.2 k ∧ fracLe (3, 5) (simFrac p.2 k) = true := by
  obtain ⟨x, hx, hfx⟩ := List.mem_filterMap.mp h
  by_cases hc : fracLe (3, 5) (simFrac x k) = true
  · rw [if_pos hc] at hfx
    cases hfx
    exact ⟨hx, rfl, hc⟩
  · rw [if_neg hc] at hfx
    cases hfx

theorem find_fuzzy_eq (rows : List Row) (idx : WordIndex) (word : String)
    (n : Nat) :
    find_fuzzy_matches rows idx word n
      = ((sortDesc pairLt ((keysOf idx).filterMap (fun x =>
            if fracLe (3, 5) (simFrac x (normKey word)) then
              some (simFrac x (normKey word), x)
            else none))).take n).map
          (fun p => format_entry (rowAt rows (lookupIdx idx p.2)) false) := by
  unfold find_fuzzy_matches get_close_matches
  rw [List.map_map]
  rfl

theorem find_prefix_eq (rows : List Row) (idx : WordIndex) (word : String)
    (n : Nat) :
    find_prefix_matches rows idx word n
      = (((keysOf idx).filter (fun w => (normKey word).isPrefixOf w)).take n).map
          (fun m => format_entry (rowAt rows (lookupIdx idx m)) false) := rfl

/-- C5 (amended): the three tiers are evaluated in order and the first
non-empty one wins.  An exact hit returns the corresponding entry with the
full flag of the query.  Otherwise, when some indexed key has similarity at or
above 3/5 to the normalised query, the result is the fuzzy tier: at most
three alternatives, sorted by descending (similarity, key) — so ties in
similarity are broken by descending key order, not insertion order — every
alternative being an indexed key at or above the cutoff, and no candidate
at or above the cutoff beating a selected one.  Otherwise the keys the
normalised query starts, in insertion order truncated to five, and when
all tiers are empty the designated error. -/
theorem C5_query_tiers (rows : List Row) (idx : WordIndex) (word : String)
    (full : Bool) :
    (∀ i, lookupIdx idx (normKey word) = some i →
        query rows idx word full =
          { success := true, query := word, match_type := some "exact"
            primary := some (format_entry (rows.getD i default) full)
            alternatives := none, error := none }) ∧
    (lookupIdx idx (normKey word) = none →
      ∀ sel, sel = (sortDesc pairLt ((keysOf idx).filterMap (fun x =>
            if fracLe (3, 5) (simFrac x (normKey word)) then
              some (simFrac x (normKey word), x)
            else none))).take 3 →
        (sel ≠ [] →
          query rows idx word full =
            { success := true, query := word, match_type := some "fuzzy"
              primary := none
              alternatives := some (sel.map (fun p =>
                format_entry (rowAt rows (lookupIdx idx p.2)) false))
              error := none } ∧
          sel.length ≤ 3 ∧
          sel.Pairwise (fun p q => pairLt p q = false) ∧
          sel.Pairwise (fun p q =>
            similarity q.2 (normKey word) ≤ similarity p.2 (normKey word)) ∧
          (∀ p ∈ sel, p.2 ∈ keysOf idx ∧ p.1 = simFrac p.2 (normKey word)
            ∧ (3 : ℚ) / 5 ≤ similarity p.2 (normKey word)) ∧
          (∀ x ∈ keysOf idx, (3 : ℚ) / 5 ≤ similarity x (normKey word) →
            (simFrac x (normKey word), x) ∈ sel ∨
              ∀ q ∈ sel, pairLt q (simFrac x (normKey word), x) = false)) ∧
        (sel = [] →
          (((keysOf idx).filter (fun w => (normKey word).isPrefixOf w)) ≠ [] →
            query rows idx word full =
              { success := true, query := word, match_type := some "prefix"
                primary := none
                alternatives := some ((((keysOf idx).filter
                    (fun w => (normKey word).isPrefixOf w)).take 5).map (fun m =>
                  format_entry (rowAt rows (lookupIdx idx m)) false))
                error := none }) ∧
          (((keysOf idx).filter (fun w => (normKey word).isPrefixOf w)) = [] →
            query rows idx word full =
              { success := false, query := word, match_type := none
                primary := none, alternatives := none
                error := some "No matching words found" }))) := by
  constructor
  · intro i hi
    simp [query, find_exact_match, hi]
  · intro hnone sel hsel
    have hposall : ∀ p ∈ (keysOf idx).filterMap (fun x =>
        if fracLe (3, 5) (simFrac x (normKey word)) then
          some (simFrac x (normKey word), x)
        else none), 0 < p.1.2 := by
      intro p hp
      rw [(mem_scored hp).2.1]
      exact simFrac_den_pos _ _
    have hpw := sortDesc_pairwiseP pairLt pairLt_asymm
      (fun a b c ha hb hc => pairLt_negtrans a b c ha hb hc)
      ((keysOf idx).filterMap (fun x =>
        if fracLe (3, 5) (simFrac x (normKey word)) then
          some (simFrac x (normKey word), x)
        else none)) hposall
    have hfz : find_fuzzy_matches rows idx word 3
        = sel.map (fun p => format_entry (rowAt rows (lookupIdx idx p.2)) false) := by
      rw [find_fuzzy_eq, ← hsel]
    constructor
    · intro hne
      have hfzne : (find_fuzzy_matches rows idx word 3).isEmpty = false := by
        rw [hfz]
        cases sel with
        | nil => exact absurd rfl hne
        | cons p ps => rfl
      have hselmem : ∀ p ∈ sel, p.2 ∈ keysOf idx
          ∧ p.1 = simFrac p.2 (normKey word)
          ∧ (3 : ℚ) / 5 ≤ similarity p.2 (normKey word) := by
        intro p hp
        have hmem : p ∈ (keysOf idx).filterMap (fun x =>
            if fracLe (3, 5) (simFrac x (normKey word)) then
              some (simFrac x (normKey word), x)
            else none) := by
          refine (sortDesc_perm pairLt _).mem_iff.mp ?_
          rw [hsel] at hp
          exact List.take_subset _ _ hp
        obtain ⟨h1, h2, h3⟩ := mem_scored hmem
        exact ⟨h1, h2, (cutoff_iff _ _).mp h3⟩
      have hpwsel : sel.Pairwise (fun p q => pairLt p q = false) := by
        rw [hsel]
        exact hpw.sublist (List.take_sublist _ _)
      refine ⟨?_, ?_, hpwsel, ?_, hselmem, ?_⟩
      · simp only [query, find_exact_match, hnone, Option.map_none]
        rw [hfzne]
        simp only [Bool.false_eq_true, if_neg, ite_false]
        rw [hfz]
        rfl
      · rw [hsel]
        rw [List.length_take]
        exact min_le_left _ _
      · refine List.Pairwise.imp_of_mem ?_ hpwsel
        intro p q hp hq hlt
        exact similarity_le_of_pairLt_false (hselmem p hp).2.1
          (hselmem q hq).2.1 hlt
      · intro x hx hcut
        have hmem : (simFrac x (normKey word), x)
            ∈ (keysOf idx).filterMap (fun x =>
              if fracLe (3, 5) (simFrac x (normKey word)) then
                some (simFrac x (normKey word), x)
              else none) :=
          List.mem_filterMap.mpr ⟨x, hx, by rw [if_pos ((cutoff_iff _ _).mpr hcut)]⟩
        have hsorted := (sortDesc_perm pairLt ((keysOf idx).filterMap (fun x =>
            if fracLe (3, 5) (simFrac x (normKey word)) then
              some (simFrac x (normKey word), x)
            else none))).mem_iff.mpr hmem
        rw [← List.take_append_drop 3 (sortDesc pairLt _)] at hsorted
        rcases List.mem_append.mp hsorted with hin | hdrop
        · left
          rw [hsel]
          exact hin
        · right
          intro q hq
          refine take_dominates hpw 3 _ hdrop q ?_
          rw [← hsel]
          exact hq
    · intro hemp
      have hfze : (find_fuzzy_matches rows idx word 3).isEmpty = true := by
        rw [hfz, hemp]
        rfl
      constructor
      · intro hpne
        have hps : (find_prefix_matches rows idx word 5).isEmpty = false := by
          rw [find_prefix_eq]
          cases hf : (keysOf idx).filter (fun w => (normKey word).isPrefixOf w) with
          | nil => exact absurd hf hpne
          | cons a as => rfl
        simp only [query, find_exact_match, hnone, Option.map_none]
        rw [hfze]
        simp only [if_pos]
        rw [hps]
        simp only [Bool.false_eq_true, if_neg, ite_false]
        rw [find_prefix_eq]
        rfl
      · intro hpe
        have hps : (find_prefix_matches rows idx word 5).isEmpty = true := by
          rw [find_prefix_eq, hpe]
          rfl
        simp only [query, find_exact_match, hnone, Option.map_none]
        rw [hfze]
        simp only [if_pos]
        rw [hps]
        simp only [if_pos]
        rfl

/-- Witness for `C5_query_tiers`: the exact tier on a one-word table and
the fuzzy tier on the two-word tie table. -/
theorem C5_query_tiers_witness :
    query oneRow (buildIndex oneRow) "a" false =
      { success := true, query := "a", match_type := some "exact"
        primary := some (format_entry (oneRow.getD 0 default) false)
        alternatives := none, error := none } ∧
    (query exRows (buildIndex exRows) "abc" false).match_type = some "fuzzy" := by
  constructor
  · exact (C5_query_tiers oneRow (buildIndex oneRow) "a" false).1 0 (by decide)
  · exact congrArg QueryResult.match_type
      ((((C5_query_tiers exRows (buildIndex exRows) "abc" false).2
        (by decide) _ rfl).1 (by decide)).1)

/-- C5, as stated, is refuted on a similarity tie: against the query abc
the keys abd and abe have equal similarity 2/3, the index lists abd first,
yet the returned alternatives order abe before abd, because nlargest
breaks score ties by descending word, not by index insertion order. -/
theorem C5_counterexample :
    (query exRows (buildIndex exRows) "abc" false).alternatives
      = some [format_entry (exRows.getD 1 default) false,
              format_entry (exRows.getD 0 default) false] ∧
    claim_fuzzy_order (buildIndex exRows) "abc" = ["abd".toList, "abe".toList] ∧
    (query exRows (buildIndex exRows) "abc" false).alternatives
      ≠ some ((claim_fuzzy_order (buildIndex exRows) "abc").map (fun m =>
          format_entry (rowAt exRows (lookupIdx (buildIndex exRows) m)) false)) := by
  refine ⟨by decide, by decide, by decide⟩

/-! ## C8: the word index -/

theorem lookupIdx_insertKey (m : WordIndex) (kk k : List Char) (v : Nat) :
    lookupIdx (insertKey m kk v) k
      = if k = kk then some v else lookupIdx m k := by
  unfold lookupIdx insertKey
  by_cases hk : k = kk
  · subst hk
    rw [if_pos rfl]
    by_cases h : m.any (fun p => p.1 = k) = true
    · rw [if_pos h, find?_map_update m k v h]
      rfl
    · rw [if_neg h]
      have hnone : m.find? (fun p => p.1 = k) = none := by
        rw [List.find?_eq_none]
        intro p hp hpk
        exact h (List.any_eq_true.mpr ⟨p, hp, hpk⟩)
      rw [find?_append_single m k v hnone]
      rfl
  · rw [if_neg hk]
    by_cases h : m.any (fun p => p.1 = kk) = true
    · rw [if_pos h, find?_map_update_ne m k kk v hk]
    · rw [if_neg h, find?_append_single_ne m k kk v hk]

theorem buildIndexAux_lookup (rs : List Row) :
    ∀ (i : Nat) (m : WordIndex) (k : List Char),
    lookupIdx (buildIndexAux i rs m) k
      = (match lastMatchIdxFrom i rs k with
         | some j => some j
         | none => lookupIdx m k) := by
  induction rs with
  | nil =>
    intro i m k
    rfl
  | cons r rest ih =>
    intro i m k
    unfold buildIndexAux lastMatchIdxFrom
    cases hw : r.word with
    | none =>
      rw [ih]
      cases lastMatchIdxFrom (i + 1) rest k with
      | some j => rfl
      | none =>
        have : rowKeyIs r k = false := by
          unfold rowKeyIs
          rw [hw]
        rw [this]
        rfl
    | some w =>
      rw [ih]
      cases hlm : lastMatchIdxFrom (i + 1) rest k with
      | some j => rfl
      | none =>
        rw [lookupIdx_insertKey]
        have hrk : rowKeyIs r k = decide (normKey w = k) := by
          unfold rowKeyIs
          rw [hw]
        rw [hrk]
        by_cases hkk : k = normKey w
        · rw [if_pos hkk]
          have : decide (normKey w = k) = true := decide_eq_true hkk.symm
          rw [this]
          rfl
        · rw [if_neg hkk]
          have : decide (normKey w = k) = false :=
            decide_eq_false (fun h => hkk h.symm)
          rw [this]
          rfl

theorem keysOf_insertKey (m : WordIndex) (k : List Char) (v : Nat) :
    keysOf (insertKey m k v)
      = if m.any (fun p => p.1 = k) then keysOf m else keysOf m ++ [k] := by
  unfold keysOf insertKey
  by_cases h : m.any (fun p => p.1 = k) = true
  · rw [if_pos h, if_pos h, List.map_map]
    refine List.map_congr_left ?_
    intro p hp
    by_cases hpk : p.1 = k
    · simp [hpk]
    · simp [hpk]
  · rw [if_neg h, if_neg h, List.map_append]
    rfl

theorem keysOf_nodup_insertKey (m : WordIndex) (k : List Char) (v : Nat)
    (h : (keysOf m).Nodup) : (keysOf (insertKey m k v)).Nodup := by
  rw [keysOf_insertKey]
  by_cases ha : m.any (fun p => p.1 = k) = true
  · rw [if_pos ha]
    exact h
  · rw [if_neg ha]
    have hk : k ∉ keysOf m := by
      intro hmem
      obtain ⟨p, hp, hpe⟩ := List.mem_map.mp hmem
      exact ha (List.any_eq_true.mpr ⟨p, hp, by simp [hpe]⟩)
    refine List.Nodup.append h (List.nodup_singleton k) ?_
    intro a hamem hasing
    rw [List.mem_singleton.mp hasing] at hamem
    exact hk hamem

theorem buildIndexAux_keys_nodup (rs : List Row) :
    ∀ (i : Nat) (m : WordIndex),
    (keysOf m).Nodup → (keysOf (buildIndexAux i rs m)).Nodup := by
  induction rs with
  | nil =>
    intro i m h
    exact h
  | cons r rest ih =>
    intro i m h
    unfold buildIndexAux
    cases r.word with
    | none => exact ih _ _ h
    | some w => exact ih _ _ (keysOf_nodup_insertKey _ _ _ h)

/-- C8 (amended): the index holds exactly one entry per distinct
normalised word (its key list has no duplicates), and looking a key up
returns the position of the last row whose word cell is present and
normalises to that key — a row is indexed whenever its word cell is
non-null, including words that are empty after trimming, which land under
the empty key. -/
theorem C8_index_last_row_wins (rows : List Row) (k : List Char) :
    lookupIdx (buildIndex rows) k = lastMatchIdxFrom 0 rows k ∧
    (keysOf (buildIndex rows)).Nodup := by
  constructor
  · rw [buildIndex, buildIndexAux_lookup]
    cases lastMatchIdxFrom 0 rows k with
    | some j => rfl
    | none => rfl
  · exact buildIndexAux_keys_nodup rows 0 [] List.nodup_nil

/-- C8, as stated, is refuted on a whitespace-only word: the row is
indexed (under the empty key) although its word is empty after trimming,
so the indexed rows are not exactly those with words non-empty after
trimming. -/
theorem C8_counterexample :
    buildIndex wsRows = [([], 0)] ∧
    normKey "  " = [] ∧
    (wsRows.getD 0 default).word = some "  " := by
  refine ⟨by decide, by decide, by decide⟩

/-! ## C9: entry formatting -/

theorem query_alternatives_shape (rows : List Row) (idx : WordIndex)
    (word : String) (full : Bool) (alts : List Entry)
    (h : (query rows idx word full).alternatives = some alts) :
    alts = find_fuzzy_matches rows idx word 3
      ∨ alts = find_prefix_matches rows idx word 5 := by
  unfold query at h
  cases hex : find_exact_match rows idx word with
  | some v =>
    rw [hex] at h
    cases h
  | none =>
    rw [hex] at h
    cases hfz : (find_fuzzy_matches rows idx word 3).isEmpty with
    | false =>
      simp only [hfz, Bool.false_eq_true, if_false, ite_false] at h
      left
      exact (Option.some_inj.mp h).symm
    | true =>
      simp only [hfz, if_true, ite_true] at h
      cases hps : (find_prefix_matches rows idx word 5).isEmpty with
      | false =>
        simp only [hps, Bool.false_eq_true, if_false, ite_false] at h
        right
        exact (Option.some_inj.mp h).symm
      | true =>
        simp only [hps, if_true, ite_true] at h
        cases h

theorem mem_fuzzy_base_only (rows : List Row) (idx : WordIndex)
    (word : String) (n : Nat) (e : Entry)
    (he : e ∈ find_fuzzy_matches rows idx word n) :
    e.part_of_speech = none ∧ e.examples = none ∧ e.additional_info = none := by
  unfold find_fuzzy_matches at he
  obtain ⟨m, hm, rfl⟩ := List.mem_map.mp he
  exact ⟨rfl, rfl, rfl⟩

theorem mem_prefix_base_only (rows : List Row) (idx : WordIndex)
    (word : String) (n : Nat) (e : Entry)
    (he : e ∈ find_prefix_matches rows idx word n) :
    e.part_of_speech = none ∧ e.examples = none ∧ e.additional_info = none := by
  unfold find_prefix_matches at he
  obtain ⟨m, hm, rfl⟩ := List.mem_map.mp he
  exact ⟨rfl, rfl, rfl⟩

/-- C9 (amended): formatting always emits the three base fields, trimmed,
with an explicit null marker (never an empty string) for a missing cell;
full formatting additionally emits the three detail fields; but in query
results only the exact-match primary is formatted with the full flag of
the query — every fuzzy or prefix alternative is always formatted base-only,
whatever full was. -/
theorem C9_formatting (rows : List Row) (idx : WordIndex) (word : String)
    (full : Bool) (r : Row) :
    ((format_entry r full).word = strField r.word ∧
     (format_entry r full).pronunciation = strField r.pronunciation ∧
     (format_entry r full).definition = strField r.definition) ∧
    (r.word = none → (format_entry r full).word = none) ∧
    (r.pronunciation = none → (format_entry r full).pronunciation = none) ∧
    (r.definition = none → (format_entry r full).definition = none) ∧
    ((format_entry r true).part_of_speech = some (strField r.part_of_speech) ∧
     (format_entry r true).examples = some (strField r.examples) ∧
     (format_entry r true).additional_info = some (strField r.additional_info)) ∧
    ((format_entry r false).part_of_speech = none ∧
     (format_entry r false).examples = none ∧
     (format_entry r false).additional_info = none) ∧
    (∀ alts, (query rows idx word full).alternatives = some alts →
      ∀ e ∈ alts, e.part_of_speech = none ∧ e.examples = none
        ∧ e.additional_info = none) := by
  refine ⟨⟨rfl, rfl, rfl⟩, ?_, ?_, ?_, ⟨rfl, rfl, rfl⟩, ⟨rfl, rfl, rfl⟩, ?_⟩
  · intro h
    simp [format_entry, strField, h]
  · intro h
    simp [format_entry, strField, h]
  · intro h
    simp [format_entry, strField, h]
  · intro alts halts e he
    rcases query_alternatives_shape rows idx word full alts halts with rfl | rfl
    · exact mem_fuzzy_base_only rows idx word 3 e he
    · exact mem_prefix_base_only rows idx word 5 e he

/-- Witness for `C9_formatting`: the null marker on an all-empty row and
the base-only alternatives of a concrete full fuzzy query. -/
theorem C9_formatting_witness :
    (format_entry default true).word = none ∧
    (∀ e ∈ [format_entry (exRows.getD 1 default) false,
            format_entry (exRows.getD 0 default) false],
      e.part_of_speech = none ∧ e.examples = none ∧ e.additional_info = none) := by
  constructor
  · exact (C9_formatting [] [] "" true default).2.1 rfl
  · exact (C9_formatting exRows (buildIndex exRows) "abc" true default).2.2.2.2.2.2
      [format_entry (exRows.getD 1 default) false,
       format_entry (exRows.getD 0 default) false] (by decide)

/-- C9, as stated, is refuted: a full query whose result is fuzzy returns
alternatives without the detail fields, although the matched row has a
part of speech. -/
theorem C9_counterexample :
    ((query exRows (buildIndex exRows) "abc" true).alternatives).map
        (fun l => l.map (fun e => e.part_of_speech))
      = some [none, none] ∧
    (query exRows (buildIndex exRows) "abc" true).match_type = some "fuzzy" ∧
    (exRows.getD 0 default).part_of_speech = some "n" := by
  refine ⟨by decide, by decide, by decide⟩

/-! ## C10: the empty query -/

theorem runLen_nil_right (a : List Char) : runLen a [] = 0 := by
  cases a <;> rfl

theorem foldl_fixed {β : Type} {γ : Type} {f : β → γ → β} (l : List γ) (b : β)
    (h : ∀ c ∈ l, f b c = b) : l.foldl f b = b := by
  induction l with
  | nil => rfl
  | cons c cs ih =>
    rw [List.foldl_cons, h c (List.mem_cons_self c cs)]
    exact ih (fun c' hc' => h c' (List.mem_cons_of_mem _ hc'))

theorem longestMatch_nil_right (a : List Char) : longestMatch a [] = (0, 0, 0) := by
  unfold longestMatch
  refine foldl_fixed _ _ ?_
  intro c _
  simp [List.drop_nil, runLen_nil_right]

theorem totalMatches_nil_right (f : Nat) (a : List Char) :
    totalMatches f a [] = 0 := by
  cases f with
  | zero => rfl
  | succ fuel =>
    unfold totalMatches
    rw [longestMatch_nil_right]
    rfl

theorem cutoff_empty_false (x : List Char) (hx : x ≠ []) :
    fracLe (3, 5) (simFrac x []) = false := by
  have hlen : x.length ≠ 0 := fun h => hx (List.eq_nil_of_length_eq_zero h)
  unfold simFrac fracLe
  rw [if_neg (by simpa using hlen)]
  rw [totalMatches_nil_right]
  simp only [List.length_nil, Nat.add_zero, Nat.mul_zero, Nat.zero_mul]
  exact decide_eq_false (by omega)

/-- C10: on a loaded index with at least one word and no empty key, a
query that is empty after normalisation never reaches the no-match error:
the exact and fuzzy tiers are empty for it, the empty string is a literal
prefix of every key, and the result is the prefix tier holding the first
(at most five) indexed words in insertion order. -/
theorem C10_empty_query (rows : List Row) (q : String) (full : Bool)
    (hne : buildIndex rows ≠ [])
    (hkeys : ∀ k ∈ keysOf (buildIndex rows), k ≠ [])
    (hq : normKey q = []) :
    query rows (buildIndex rows) q full =
      { success := true, query := q, match_type := some "prefix"
        primary := none
        alternatives := some (((keysOf (buildIndex rows)).take 5).map (fun m =>
          format_entry (rowAt rows (lookupIdx (buildIndex rows) m)) false))
        error := none } := by
  have hex : lookupIdx (buildIndex rows) (normKey q) = none := by
    rw [hq]
    unfold lookupIdx
    rw [List.find?_eq_none.mpr]
    · rfl
    · intro p hp hpk
      exact hkeys p.1 (List.mem_map.mpr ⟨p, hp, rfl⟩) (of_decide_eq_true hpk)
  have hscored : (keysOf (buildIndex rows)).filterMap (fun x =>
      if fracLe (3, 5) (simFrac x (normKey q)) then
        some (simFrac x (normKey q), x)
      else none) = [] := by
    rw [List.filterMap_eq_nil_iff]
    intro x hx
    rw [hq, if_neg]
    rw [cutoff_empty_false x (hkeys x hx)]
    exact Bool.false_ne_true
  have hfz : find_fuzzy_matches rows (buildIndex rows) q 3 = [] := by
    rw [find_fuzzy_eq, hscored]
    rfl
  have hfilter : (keysOf (buildIndex rows)).filter
      (fun w => (normKey q).isPrefixOf w) = keysOf (buildIndex rows) := by
    rw [hq]
    apply List.filter_eq_self.mpr
    intro a ha
    exact List.isPrefixOf_iff_prefix.mpr List.nil_prefix
  have hkne : keysOf (buildIndex rows) ≠ [] := by
    intro h
    exact hne (List.map_eq_nil_iff.mp h)
  have hps : find_prefix_matches rows (buildIndex rows) q 5
      = ((keysOf (buildIndex rows)).take 5).map (fun m =>
          format_entry (rowAt rows (lookupIdx (buildIndex rows) m)) false) := by
    rw [find_prefix_eq, hfilter]
  have hpsne : (find_prefix_matches rows (buildIndex rows) q 5).isEmpty = false := by
    rw [hps]
    cases hk : keysOf (buildIndex rows) with
    | nil => exact absurd hk hkne
    | cons a as => rfl
  simp only [query, find_exact_match, hex, Option.map_none]
  rw [hfz]
  simp only [List.isEmpty_nil, if_pos]
  rw [hpsne]
  simp only [Bool.false_eq_true, if_neg, ite_false]
  rw [hps]
  rfl

/-- Witness for `C10_empty_query`: querying a single blank on a one-word
table returns that word as a prefix match. -/
theorem C10_empty_query_witness :
    query oneRow (buildIndex oneRow) " " false =
      { success := true, query := " ", match_type := some "prefix"
        primary := none
        alternatives := some (((keysOf (buildIndex oneRow)).take 5).map (fun m =>
          format_entry (rowAt oneRow (lookupIdx (buildIndex oneRow) m)) false))
        error := none } :=
  C10_empty_query oneRow " " false (by decide) (by decide) (by decide)

/-! ## C6: latest-version resolution -/

theorem latest_of_max (tokens : List String) (v : String)
    (h : latest_of tokens = some v) :
    v ∈ tokens ∧ ∀ t ∈ tokens, strLt v t = false := by
  unfold latest_of at h
  exact sortDesc_head_max (fun a b => strLt a b)
    (fun a b hab => strLtL_asymm _ _ hab)
    (fun a b c hab hbc => strLtL_negtrans _ _ _ hab hbc)
    (fun a => strLtL_irrefl _) tokens v h

theorem digit_bounds {c : Char} (h : isAsciiDigit c = true) :
    48 ≤ c.toNat ∧ c.toNat ≤ 57 := by
  unfold isAsciiDigit at h
  rw [Bool.and_eq_true, decide_eq_true_eq, decide_eq_true_eq] at h
  exact h

theorem natVal_lt_pow (cs : List Char) (h : cs.all isAsciiDigit = true) :
    natVal cs < 10 ^ cs.length := by
  induction cs with
  | nil => simp [natVal]
  | cons c cs ih =>
    rw [List.all_cons, Bool.and_eq_true] at h
    have hd : c.toNat - 48 ≤ 9 := by
      have := digit_bounds h.1
      omega
    have hv := ih h.2
    simp only [natVal, List.length_cons, pow_succ]
    calc (c.toNat - 48) * 10 ^ cs.length + natVal cs
        < (c.toNat - 48) * 10 ^ cs.length + 10 ^ cs.length :=
          Nat.add_lt_add_left hv _
      _ = (c.toNat - 48 + 1) * 10 ^ cs.length := by ring
      _ ≤ 10 * 10 ^ cs.length := Nat.mul_le_mul_right _ (by omega)
      _ = 10 ^ cs.length * 10 := by ring

theorem natVal_head_lt {x y : Char} {xs ys : List Char}
    (hlen : xs.length = ys.length)
    (hx : (x :: xs).all isAsciiDigit = true)
    (hy : (y :: ys).all isAsciiDigit = true)
    (hxy : x.toNat < y.toNat) :
    natVal (x :: xs) < natVal (y :: ys) := by
  rw [List.all_cons, Bool.and_eq_true] at hx hy
  have hx48 := digit_bounds hx.1
  have hy48 := digit_bounds hy.1
  have hvx := natVal_lt_pow xs hx.2
  simp only [natVal]
  rw [hlen] at hvx ⊢
  calc (x.toNat - 48) * 10 ^ ys.length + natVal xs
      < (x.toNat - 48) * 10 ^ ys.length + 10 ^ ys.length :=
        Nat.add_lt_add_left hvx _
    _ = (x.toNat - 48 + 1) * 10 ^ ys.length := by ring
    _ ≤ (y.toNat - 48) * 10 ^ ys.length := Nat.mul_le_mul_right _ (by omega)
    _ ≤ (y.toNat - 48) * 10 ^ ys.length + natVal ys := Nat.le_add_right _ _

theorem lex_iff_natVal : ∀ (a b : List Char), a.length = b.length →
    a.all isAsciiDigit = true → b.all isAsciiDigit = true →
    (strLtL a b = true ↔ natVal a < natVal b) := by
  intro a
  induction a with
  | nil =>
    intro b hlen _ _
    cases b with
    | nil => simp [strLtL, natVal]
    | cons y ys => simp at hlen
  | cons x xs ih =>
    intro b hlen ha hb
    cases b with
    | nil => simp at hlen
    | cons y ys =>
      have hlen' : xs.length = ys.length := by simpa using hlen
      simp only [strLtL]
      rcases Nat.lt_trichotomy x.toNat y.toNat with h1 | h1 | h1
      · rw [if_pos h1]
        constructor
        · intro _
          exact natVal_head_lt hlen' ha hb h1
        · intro _
          rfl
      · rw [if_neg (by omega), if_neg (by omega)]
        rw [List.all_cons, Bool.and_eq_true] at ha hb
        have := ih ys hlen' ha.2 hb.2
        rw [this]
        simp only [natVal]
        rw [hlen', h1]
        exact (Nat.add_lt_add_iff_left).symm
      · rw [if_neg (by omega), if_pos h1]
        constructor
        · intro h
          cases h
        · intro hlt
          exfalso
          exact Nat.lt_asymm hlt (natVal_head_lt hlen'.symm hb ha h1)

/-- C6 (amended): the checker resolves per-dictionary — whenever it
succeeds, the returned token is one of the tokens its configured pattern
extracts from its configured listing page, and no extracted token is
lexically greater; the downloader, by contrast, ignores its argument and
always resolves through the concised page and pattern, so its result is
the same for every configured name; and on equal-width 8-digit tokens the
lexical order used for the maximum agrees with numeric order. -/
theorem C6_latest_version_resolution :
    (∀ dict_name info pages v,
      lookupDict DICTIONARIES dict_name = some info →
      UpdateChecker.get_latest_version dict_name pages = .ok v →
      v ∈ scanVersions info.filePre.toList (pages info.url).toList ∧
      ∀ t ∈ scanVersions info.filePre.toList (pages info.url).toList,
        strLt v t = false) ∧
    (∀ dict_name pages, dict_name ∈ downloader_sources →
      DictionaryDownloader.get_latest_version dict_name pages
        = DictionaryDownloader.get_latest_version "concised" pages) ∧
    (∀ a b : List Char, a.length = 8 → b.length = 8 →
      a.all isAsciiDigit = true → b.all isAsciiDigit = true →
      (strLtL a b = true ↔ natVal a < natVal b)) := by
  refine ⟨?_, ?_, ?_⟩
  · intro dn info pages v hlk hok
    unfold UpdateChecker.get_latest_version at hok
    simp only [hlk] at hok
    cases hl : latest_of (scanVersions info.filePre.toList (pages info.url).toList) with
    | none =>
      rw [hl] at hok
      simp at hok
    | some w =>
      rw [hl] at hok
      simp only [Except.ok.injEq] at hok
      subst hok
      exact latest_of_max _ _ hl
  · intro dn pages hdn
    unfold DictionaryDownloader.get_latest_version
    rw [if_pos hdn, if_pos (by decide)]
  · intro a b ha8 hb8 had hbd
    exact lex_iff_natVal a b (by rw [ha8, hb8]) had hbd

/-- Witness for `C6_latest_version_resolution`: the checker result for the
revised dictionary on the concrete pages is the maximal extracted token,
and the lexical-numeric agreement at two concrete date tokens. -/
theorem C6_latest_version_resolution_witness :
    ("20230505" ∈ scanVersions "dict_revised_2014_".toList
        (exPages (moe_base ++ "dict_revised_download.html")).toList ∧
      ∀ t ∈ scanVersions "dict_revised_2014_".toList
          (exPages (moe_base ++ "dict_revised_download.html")).toList,
        strLt "20230505" t = false) ∧
    (strLtL "20140131".toList "20240229".toList = true ↔
      natVal "20140131".toList < natVal "20240229".toList) := by
  constructor
  · exact (C6_latest_version_resolution).1 "revised"
      { display := "重編國語辭典修訂本"
        url := moe_base ++ "dict_revised_download.html"
        filePre := "dict_revised_2014_" } exPages "20230505" rfl rfl
  · exact (C6_latest_version_resolution).2.2 "20140131".toList "20240229".toList
      (by decide) (by decide) (by decide) (by decide)

/-- C6, as stated, is refuted on the revised dictionary: the downloader
resolves it through the concised page and pattern, returning a token that
the per-dictionary resolution of the claim does not. -/
theorem C6_counterexample :
    DictionaryDownloader.get_latest_version "revised" exPages
      = .ok (some "20200101") ∧
    claimed_resolution "revised" exPages = some "20230505" ∧
    (some "20200101" : Option String) ≠ some "20230505" := by
  refine ⟨rfl, rfl, by decide⟩

end TcDict
